import Mathlib

/-!
Verification of the retrieval core of the `ai-support-agent` repository.

We give a shallow embedding of the algorithmic core — the FAISS-backed
vector index (`src/services/vector_store.py`), the from-scratch BM25
keyword scorer and hybrid ranker (`src/services/hybrid_search.py`), and
the semantic chunker (`src/services/semantic_chunker.py`) — and prove or
refute the specified properties about them.

Modelling conventions:
* Python floats are modelled as real numbers (`ℝ`); the semantic
  chunker's similarity values, whose only use is order comparison against
  rational thresholds, are modelled as `ℚ` to keep that part decidable.
* The sentence-transformer embedding model is an external collaborator;
  functions that consume embeddings take the embedding vectors as
  explicit arguments instead of calling the external model.
* Python `list.sort(..., reverse=True)` is modelled by `List.mergeSort`
  with the reversed order (both are stable descending sorts).
* The filesystem seen by `save`/`load` is modelled as a record holding
  the optional contents of the two persisted artifacts.
-/

namespace SupportAgent

/-- Document record (`src/models/schemas.py`, class `Document`).
`docSection` models the `section` field (that word is a Lean keyword). -/
structure Document where
  id : String
  title : String
  content : String
  category : String
  docSection : Option String
deriving DecidableEq, Repr

/-- Retrieved context record (`src/models/schemas.py`, class `RetrievedContext`). -/
structure RetrievedContext where
  document : Document
  similarity_score : ℝ

/-- Application settings relevant to retrieval (`src/config.py`, class `Settings`). -/
def Settings.top_k_results : Nat := 5

/-- `Settings.similarity_threshold` default (`src/config.py`). -/
noncomputable def Settings.similarity_threshold : ℝ := 0.3

/-! ### Vector store (`src/services/vector_store.py`) -/

/-- Sum of squares of a vector's entries (`np.linalg.norm(v)` squared). -/
def sumSq (v : List ℝ) : ℝ := (v.map (fun x => x * x)).sum

/-- L2 norm of a vector, `np.linalg.norm` over the reals. -/
noncomputable def l2norm (v : List ℝ) : ℝ := Real.sqrt (sumSq v)

/-- `FAISSVectorStore._normalize_vectors` applied to one row: divide by the
L2 norm, with the `np.where(norms == 0, 1, norms)` guard against division
by zero. -/
noncomputable def normalizeVector (v : List ℝ) : List ℝ :=
  let n := l2norm v
  let n := if n = 0 then 1 else n
  v.map (fun x => x / n)

/-- In-memory state of `FAISSVectorStore`: the `IndexFlatIP` contents
(`index.ntotal = vectors.length`) and the parallel `documents` metadata list. -/
structure FAISSVectorStore where
  dimension : Nat
  vectors : List (List ℝ)
  documents : List Document

/-- `FAISSVectorStore.__init__` without an `index_path`: an empty index. -/
def FAISSVectorStore.init (dimension : Nat) : FAISSVectorStore :=
  { dimension := dimension, vectors := [], documents := [] }

/-- `FAISSVectorStore.get_document_count`. -/
def FAISSVectorStore.get_document_count (st : FAISSVectorStore) : Nat :=
  st.documents.length

/-- Inner product of two vectors (`faiss.IndexFlatIP` row score). -/
def dot (u v : List ℝ) : ℝ := (List.zipWith (fun a b => a * b) u v).sum

/-- Stable descending sort of (index, score) pairs by score; with normalized
query/stored vectors these scores are the cosine similarities. -/
noncomputable def sortPairsByScoreDesc (l : List (Nat × ℝ)) : List (Nat × ℝ) :=
  l.mergeSort (fun a b => decide (b.2 ≤ a.2))

/-- Model of `faiss.IndexFlatIP.search`: computes the inner product of the
query against every stored row and returns the `k` best (index, score)
pairs, sorted non-increasing by score.  `search` always calls it with
`k = min(top_k, ntotal)`, so no `-1` placeholder slots occur. -/
noncomputable def faissSearchIP (vectors : List (List ℝ)) (q : List ℝ)
    (k : Nat) : List (Nat × ℝ) :=
  (sortPairsByScoreDesc ((vectors.map (dot q)).enum)).take k

/-- `FAISSVectorStore.search`.  `qEmb` is the external embedding of the query
text.  `top_k = none`/`threshold = none` model passing Python `None`; note
that `top_k or settings.top_k_results` also replaces a supplied `0` with the
configured default, because `0` is falsy in Python.  The document lookup
`self.documents[idx]` is modelled with a default for the (unreachable,
`idx < ntotal`) out-of-range case. -/
noncomputable def FAISSVectorStore.search (st : FAISSVectorStore)
    (qEmb : List ℝ) (top_k : Option Nat) (threshold : Option ℝ) :
    List RetrievedContext :=
  let k := match top_k with
    | some k => if k = 0 then Settings.top_k_results else k
    | none => Settings.top_k_results
  let t := match threshold with
    | some t => t
    | none => Settings.similarity_threshold
  if st.vectors.length = 0 then []
  else
    let qn := normalizeVector qEmb
    let hits := faissSearchIP st.vectors qn (min k st.vectors.length)
    (hits.filter (fun p => decide (t ≤ p.2))).map
      (fun p => ⟨st.documents.getD p.1 ⟨"", "", "", "", none⟩, p.2⟩)

/-- The directory written by `save`: optional contents of the two artifacts,
`faiss.index` (the raw vector rows) and `documents.pkl` (the pickled
passage list).  `none` means the file does not exist. -/
structure SavedDirectory where
  indexFile : Option (List (List ℝ))
  docsFile : Option (List Document)

/-- `FAISSVectorStore.save`: writes both artifacts unconditionally. -/
def FAISSVectorStore.save (st : FAISSVectorStore) : SavedDirectory :=
  { indexFile := some st.vectors, docsFile := some st.documents }

/-- `FAISSVectorStore.load`: each artifact is loaded by its own
`if path.exists()` check, independently of the other. -/
def FAISSVectorStore.load (st : FAISSVectorStore) (d : SavedDirectory) :
    FAISSVectorStore :=
  let st1 := match d.indexFile with
    | some vs => { st with vectors := vs }
    | none => st
  match d.docsFile with
  | some ds => { st1 with documents := ds }
  | none => st1

/-- `FAISSVectorStore.add_documents`.  The embeddings of the
`title + "\n" + content` texts come from the external sentence-transformer
model and are passed in as `embeds` (one row per document).  Returns the
updated store and the returned count. -/
noncomputable def FAISSVectorStore.add_documents (st : FAISSVectorStore)
    (documents : List Document) (embeds : List (List ℝ)) :
    FAISSVectorStore × Nat :=
  if documents = [] then (st, 0)
  else
    let normalized := embeds.map normalizeVector
    ({ st with vectors := st.vectors ++ normalized,
               documents := st.documents ++ documents },
     documents.length)

/-- Store holding one indexed document, used to exhibit the `top_k = 0`
behaviour of `search`. -/
noncomputable def oneDocStore : FAISSVectorStore :=
  ⟨2, [[1, 0]], [⟨"d1", "Suspension", "Domain suspension policy", "policy", none⟩]⟩

/-! ### BM25 keyword scorer (`src/services/hybrid_search.py`, class `BM25`) -/

/-- A `\w` word character as used by `re.findall(r'\b\w+\b', ...)` on the
ASCII text of this corpus: letters, digits, underscore. -/
def isWordChar (c : Char) : Bool := c.isAlphanum || c = '_'

/-- The maximal runs of word characters in a character list; together with
lowercasing this is `BM25._tokenize`'s `re.findall(r'\b\w+\b', text)`.
(When the head is a word character, dropping the run from `c :: rest` equals
dropping it from `rest` after `c`.) -/
def wordRuns : List Char → List (List Char)
  | [] => []
  | c :: rest =>
    if isWordChar c then
      ((c :: rest).takeWhile isWordChar) :: wordRuns (rest.dropWhile isWordChar)
    else wordRuns rest
termination_by l => l.length
decreasing_by
  · simp only [List.length_cons]
    exact Nat.lt_succ_of_le (List.Sublist.length_le
      (@List.dropWhile_sublist Char rest isWordChar))
  · simp

/-- `BM25._tokenize`: lowercase, then extract word-character runs. -/
def bm25Tokenize (text : String) : List String :=
  (wordRuns (text.toList.map Char.toLower)).map (fun l => String.mk l)

/-- Fitted BM25 state (`BM25.__init__` fields; `doc_freqs`/`idf` are
modelled as the derived functions `docFreq`/`BM25.idf` below). -/
structure BM25 where
  k1 : ℝ
  b : ℝ
  corpus : List (List String)
  doc_ids : List String
  doc_lengths : List Nat
  avg_doc_length : ℝ
  n_docs : Nat

/-- `BM25()` with the default parameters `k1 = 1.5`, `b = 0.75`. -/
noncomputable def BM25.init : BM25 :=
  { k1 := 1.5, b := 0.75, corpus := [], doc_ids := [], doc_lengths := [],
    avg_doc_length := 0, n_docs := 0 }

/-- `self.doc_freqs[t]` after `fit`: how many corpus documents contain `t`
(each document contributes via its set of unique tokens). -/
def docFreq (corpus : List (List String)) (t : String) : Nat :=
  (corpus.filter (fun d => decide (t ∈ d))).length

/-- `self.idf[t]` after `fit` — the dictionary holds exactly the tokens with
nonzero document frequency; `score` skips all others. -/
noncomputable def BM25.idf (m : BM25) (t : String) : ℝ :=
  Real.log (((m.n_docs : ℝ) - (docFreq m.corpus t : ℝ) + 0.5) /
    ((docFreq m.corpus t : ℝ) + 0.5) + 1)

/-- `BM25.fit`: wholesale rebuild of the corpus statistics from the
`title + " " + content` token lists. -/
noncomputable def BM25.fit (m : BM25) (documents : List Document) : BM25 :=
  let corpus := documents.map (fun doc => bm25Tokenize (doc.title ++ " " ++ doc.content))
  { m with
    corpus := corpus,
    doc_ids := documents.map Document.id,
    doc_lengths := corpus.map List.length,
    n_docs := documents.length,
    avg_doc_length :=
      ((corpus.map List.length).sum : ℝ) / ((max documents.length 1 : ℕ) : ℝ) }

/-- The per-document inner loop of `BM25.score`: fold over the query tokens,
`continue`-ing past tokens absent from the idf table, otherwise adding
`idf * (tf*(k1+1)) / (tf + k1*(1 - b + b*doc_len/avg_doc_length))` where
`tf` is the token's frequency in the document (`Counter.get(term, 0)`). -/
noncomputable def BM25.docScore (m : BM25) (query_tokens : List String)
    (doc_tokens : List String) (doc_len : Nat) : ℝ :=
  query_tokens.foldl (fun score term =>
    if docFreq m.corpus term = 0 then score
    else
      let tf : ℝ := (doc_tokens.count term : ℝ)
      let idf := m.idf term
      let numerator := tf * (m.k1 + 1)
      let denominator := tf + m.k1 * (1 - m.b + m.b * (doc_len : ℝ) / m.avg_doc_length)
      score + idf * (numerator / denominator)) 0

/-- `BM25.score`: score every corpus document against the query and sort the
`(doc_id, score)` pairs descending by score (`list.sort(key=..., reverse=True)`,
a stable descending sort, modelled by `mergeSort` with the reversed order). -/
noncomputable def BM25.score (m : BM25) (query : String) : List (String × ℝ) :=
  let query_tokens := bm25Tokenize query
  let scores := m.corpus.enum.map (fun p =>
    (m.doc_ids.getD p.1 "",
     m.docScore query_tokens p.2 (m.doc_lengths.getD p.1 0)))
  scores.mergeSort (fun a b => decide (b.2 ≤ a.2))

/-- The spec's smoothed inverse document frequency:
`idf(t) = ln((N − df(t) + 0.5)/(df(t) + 0.5) + 1)`. -/
noncomputable def bm25SpecIdf (N df : Nat) : ℝ :=
  Real.log (((N : ℝ) - (df : ℝ) + 0.5) / ((df : ℝ) + 0.5) + 1)

/-- The claimed closed-form per-document BM25 score (following the spec's
wording for C4): the sum over query tokens present in the fitted vocabulary
of `idf(t) * tf(t,d)*(k1+1) / (tf(t,d) + k1*(1 - b + b*|d|/avgdl))`, tokens
absent from the corpus contributing zero. -/
noncomputable def bm25SpecScore (k1 b : ℝ) (corpus : List (List String))
    (N : Nat) (avgdl : ℝ) (query_tokens doc_tokens : List String)
    (dlen : Nat) : ℝ :=
  (query_tokens.map (fun t =>
    if 0 < docFreq corpus t then
      bm25SpecIdf N (docFreq corpus t) *
        (((doc_tokens.count t : ℝ) * (k1 + 1)) /
          ((doc_tokens.count t : ℝ) + k1 * (1 - b + b * (dlen : ℝ) / avgdl)))
    else 0)).sum

/-- The claimed output of `BM25.score` on a fitted corpus, one
`(passage_id, score)` pair per corpus document, spelled directly from the
spec formulas with the default constants `k1 = 1.5`, `b = 0.75`. -/
noncomputable def bm25SpecResult (documents : List Document) (query : String) :
    List (String × ℝ) :=
  let corpus := documents.map (fun d => bm25Tokenize (d.title ++ " " ++ d.content))
  let N := documents.length
  let avgdl := ((corpus.map List.length).sum : ℝ) / (N : ℝ)
  documents.enum.map (fun p =>
    (p.2.id,
     bm25SpecScore 1.5 0.75 corpus N avgdl (bm25Tokenize query)
       (bm25Tokenize (p.2.title ++ " " ++ p.2.content))
       (bm25Tokenize (p.2.title ++ " " ++ p.2.content)).length))

/-! ### Hybrid search service (`src/services/hybrid_search.py`) -/

/-- Result record from hybrid search (dataclass `HybridSearchResult`). -/
structure HybridSearchResult where
  document : Document
  semantic_score : ℝ
  keyword_score : ℝ
  combined_score : ℝ
  rerank_score : Option ℝ

/-- Lookup in a Python dict built by inserting the pairs in order (later
insertions of the same key overwrite earlier ones), as in
`{doc.id: doc for doc in documents}` / `dict(...).get(key, default)`. -/
def pyDictLookup {β : Type _} (pairs : List (String × β)) (k : String) :
    Option β :=
  pairs.foldl (fun acc p => if p.1 = k then some p.2 else acc) none

/-- `HybridSearchService` state.  `ready` models the `_initialized` flag. -/
structure HybridSearchService where
  vector_store : Option FAISSVectorStore
  semantic_weight : ℝ
  keyword_weight : ℝ
  use_reranking : Bool
  bm25 : BM25
  documents : List Document
  ready : Bool

/-- `HybridSearchService.__init__`: the flag starts false; `documents` is
empty and the BM25 scorer unfitted until `index_documents` runs. -/
noncomputable def HybridSearchService.init
    (vector_store : Option FAISSVectorStore) (semantic_weight keyword_weight : ℝ)
    (use_reranking : Bool) : HybridSearchService :=
  { vector_store := vector_store, semantic_weight := semantic_weight,
    keyword_weight := keyword_weight, use_reranking := use_reranking,
    bm25 := BM25.init, documents := [], ready := false }

/-- `HybridSearchService._normalize_scores`: min-max normalization to [0,1];
when all scores are equal it returns `0.5` for every entry instead of
dividing by zero. -/
noncomputable def normalize_scores (scores : List ℝ) : List ℝ :=
  match scores with
  | [] => []
  | x :: xs =>
    let min_s := xs.foldl min x
    let max_s := xs.foldl max x
    if max_s = min_s then List.replicate (x :: xs).length (1 / 2)
    else (x :: xs).map (fun s => (s - min_s) / (max_s - min_s))

/-- `HybridSearchService.search`.  The external-embedding-dependent inputs
are explicit: `qEmb` is the query embedding consumed by the vector store and
`rerank` abstracts `CrossEncoderReranker.rerank query · top_k`, whose scores
come from the external embedding model.  Python's set-of-ids iteration order
is modelled by `dedup` of the concatenated key lists (no settled claim
depends on that order).  An uninitialized service returns `[]` at once. -/
noncomputable def HybridSearchService.search (st : HybridSearchService)
    (query : String) (qEmb : List ℝ)
    (rerank : List HybridSearchResult → Nat → List HybridSearchResult)
    (top_k : Nat) (semantic_threshold : ℝ) : List HybridSearchResult :=
  if st.ready = false then []
  else
    let candidate_k := top_k * 3
    let semantic_results := match st.vector_store with
      | some vs => vs.search qEmb (some candidate_k) (some semantic_threshold)
      | none => []
    let semantic_scores : List (String × ℝ) := semantic_results.map
      (fun r => (r.document.id, r.similarity_score))
    let bm25_scores_raw := (st.bm25.score query).take candidate_k
    let bm25_scores :=
      if bm25_scores_raw.isEmpty = false then
        (bm25_scores_raw.map Prod.fst).zip
          (normalize_scores (bm25_scores_raw.map Prod.snd))
      else []
    let all_doc_ids :=
      (semantic_scores.map Prod.fst ++ bm25_scores.map Prod.fst).dedup
    let results := all_doc_ids.filterMap (fun did =>
      match pyDictLookup (st.documents.map (fun d => (d.id, d))) did with
      | none => none
      | some doc =>
        let sem_score := (pyDictLookup semantic_scores did).getD 0
        let kw_score := (pyDictLookup bm25_scores did).getD 0
        some { document := doc, semantic_score := sem_score,
               keyword_score := kw_score,
               combined_score := st.semantic_weight * sem_score +
                 st.keyword_weight * kw_score,
               rerank_score := none })
    let sorted := results.mergeSort
      (fun a b => decide (b.combined_score ≤ a.combined_score))
    let top_candidates := sorted.take (top_k * 2)
    if st.use_reranking && !top_candidates.isEmpty then rerank top_candidates top_k
    else top_candidates.take top_k

/-- `HybridSearchService.to_retrieved_context`.  The Python expression
`r.rerank_score if r.rerank_score else r.combined_score` falls back to the
combined score when `rerank_score` is `None` **or equal to `0.0`** — both
are falsy. -/
noncomputable def HybridSearchService.to_retrieved_context
    (results : List HybridSearchResult) : List RetrievedContext :=
  results.map (fun r =>
    { document := r.document,
      similarity_score :=
        match r.rerank_score with
        | none => r.combined_score
        | some v => if v = 0 then r.combined_score else v })

/-! ### Semantic chunker (`src/services/semantic_chunker.py`) -/

/-- Configuration of `SemanticChunker.__init__`.  Similarity values are only
compared against rational thresholds, so they are modelled in `ℚ`. -/
structure SemanticChunkerConfig where
  similarity_threshold : ℚ
  min_chunk_size : Nat
  max_chunk_size : Nat
  buffer_size : Nat

/-- The constructor's default configuration. -/
def SemanticChunkerConfig.default : SemanticChunkerConfig :=
  { similarity_threshold := 1 / 2, min_chunk_size := 100,
    max_chunk_size := 1500, buffer_size := 1 }

/-- A semantic chunk (`SemanticChunk` dataclass; its optional
`avg_embedding` field, untouched by any claim, is omitted). -/
structure SemanticChunk where
  text : String
  start_sentence_idx : Nat
  end_sentence_idx : Nat
deriving DecidableEq, Repr

/-- Python `\s` whitespace over this ASCII corpus. -/
def isPySpace (c : Char) : Bool :=
  c = ' ' || c = '\t' || c = '\n' || c = '\r' || c = '\x0B' || c = '\x0C'

/-- `re.sub(r'\s+', ' ', text)`: collapse every whitespace run to a single
space.  The boolean argument records whether we are inside a run whose
space has already been emitted. -/
def collapseWsAux : Bool → List Char → List Char
  | _, [] => []
  | inRun, c :: rest =>
    if isPySpace c then
      if inRun then collapseWsAux true rest
      else ' ' :: collapseWsAux true rest
    else c :: collapseWsAux false rest

/-- whitespace-run collapse of a character list. -/
def collapseWs (l : List Char) : List Char := collapseWsAux false l

/-- `str.strip()` on a character list. -/
def stripChars (l : List Char) : List Char :=
  ((l.dropWhile isPySpace).reverse.dropWhile isPySpace).reverse

/-- A `[.!?]` sentence terminator. -/
def isSentEnd (c : Char) : Bool := c = '.' || c = '!' || c = '?'

/-- An `[A-Z]` uppercase letter. -/
def isUpperLatin (c : Char) : Bool := 'A' ≤ c && c ≤ 'Z'

/-- `re.split(r'(?<=[.!?])\s+(?=[A-Z])|(?<=\n)\s*(?=\S)', text)` applied to
whitespace-normalized text: after collapsing, no `\n` remains (the second
alternative never fires) and every `\s+` is a single `' '`, so the split
cuts after a terminator followed by a space and an uppercase letter,
consuming the space.  `cur` holds the current piece in reverse. -/
def splitSentencesAux : List Char → List Char → List (List Char)
  | cur, c :: ' ' :: u :: rest2 =>
    if isSentEnd c && isUpperLatin u then
      (cur.reverse ++ [c]) :: splitSentencesAux [] (u :: rest2)
    else splitSentencesAux (c :: cur) (' ' :: u :: rest2)
  | cur, c :: rest => splitSentencesAux (c :: cur) rest
  | cur, [] => [cur.reverse]

/-- `SemanticChunker._tokenize_sentences`: collapse whitespace, strip, split
on sentence boundaries, then strip each piece and drop the empty ones. -/
def SemanticChunker.tokenize_sentences (text : String) : List String :=
  let cleaned := stripChars (collapseWs text.data)
  let pieces := splitSentencesAux [] cleaned
  ((pieces.map stripChars).filter (fun l => decide (l ≠ []))).map
    (fun l => String.mk l)

/-- `SemanticChunker._find_breakpoints` on the adjacent-similarity array:
indices below the threshold, united with strict local minima that are below
`threshold + 0.1`; the sorted deduplicated union of the two index sets is
the increasing filter of `range`. -/
def find_breakpoints (similarity_threshold : ℚ) (sims : List ℚ) : List Nat :=
  (List.range sims.length).filter (fun i =>
    decide (sims.getD i 0 < similarity_threshold) ||
    (decide (1 ≤ i) && decide (i + 1 < sims.length) &&
     decide (sims.getD i 0 < sims.getD (i - 1) 0) &&
     decide (sims.getD i 0 < sims.getD (i + 1) 0) &&
     decide (sims.getD i 0 < similarity_threshold + 1 / 10)))

/-- `sum(len(sentences[i]) for i in range(start, end))` as used by
`_merge_small_chunks` (out-of-range indices, unreachable in the pipeline,
default to the empty string). -/
def sliceLen (sentences : List String) (s e : Nat) : Nat :=
  ((List.range' s (e - s)).map (fun j => (sentences.getD j "").length)).sum

/-- The Python slice `sentences[start:end]`. -/
def sliceStr (sentences : List String) (s e : Nat) : List String :=
  (sentences.drop s).take (e - s)

/-- `' '.join(pieces)`. -/
def joinSpace : List String → String
  | [] => ""
  | [s] => s
  | s :: rest => s ++ " " ++ joinSpace rest

/-- The accumulation loop of `_merge_small_chunks`: `cur` is the running
`(current_start, current_end)` segment and `clen` its accumulated character
length; a segment still below `min_chunk_size` absorbs the next chunk. -/
def mergeLoop (min_chunk_size : Nat) (sentences : List String) :
    List (Nat × Nat) → Nat × Nat → Nat → List (Nat × Nat)
  | [], cur, _ => [cur]
  | ce :: rest, cur, clen =>
    let chunkLen := sliceLen sentences ce.1 ce.2
    if clen < min_chunk_size then
      mergeLoop min_chunk_size sentences rest (cur.1, ce.2) (clen + chunkLen)
    else
      cur :: mergeLoop min_chunk_size sentences rest ce chunkLen

/-- `SemanticChunker._merge_small_chunks`: build the breakpoint-delimited
boundaries and merge undersized segments into their successors. -/
def merge_small_chunks (min_chunk_size : Nat) (sentences : List String)
    (breakpoints : List Nat) : List (Nat × Nat) :=
  if breakpoints = [] then [(0, sentences.length)]
  else
    let boundaries := 0 :: (breakpoints.map (fun bp => bp + 1)) ++ [sentences.length]
    let chunks := boundaries.zip boundaries.tail
    match chunks with
    | [] => []
    | c0 :: rest =>
      mergeLoop min_chunk_size sentences rest c0 (sliceLen sentences c0.1 c0.2)

/-- The greedy re-splitting loop of `_split_large_chunks` over
`for i in range(start, end)`: `f i` is the length of sentence `i`, `fuel`
the number of remaining indices, `cs`/`clen` the current sub-segment start
and its accumulated length; the final flush keeps `(cs, end)` when
`cs < end`. -/
def greedyAux (max_chunk_size : Nat) (f : Nat → Nat) :
    Nat → Nat → Nat → Nat → List (Nat × Nat)
  | 0, i, cs, _ => if cs < i then [(cs, i)] else []
  | fuel + 1, i, cs, clen =>
    let l := f i
    if max_chunk_size < clen + l ∧ 0 < clen then
      (cs, i) :: greedyAux max_chunk_size f fuel (i + 1) i l
    else
      greedyAux max_chunk_size f fuel (i + 1) cs (clen + l)

/-- Length of sentence number `j`. -/
def sentLenAt (sentences : List String) (j : Nat) : Nat :=
  (sentences.getD j "").length

/-- `SemanticChunker._split_large_chunks`: any segment whose joined text
exceeds `max_chunk_size` is greedily re-split sentence-by-sentence. -/
def split_large_chunks (max_chunk_size : Nat) (sentences : List String)
    (chunk_boundaries : List (Nat × Nat)) : List (Nat × Nat) :=
  chunk_boundaries.flatMap (fun ce =>
    let chunk_text := joinSpace (sliceStr sentences ce.1 ce.2)
    if chunk_text.length ≤ max_chunk_size then [ce]
    else greedyAux max_chunk_size (sentLenAt sentences) (ce.2 - ce.1) ce.1 ce.1 0)

/-- `SemanticChunker.chunk`.  The per-sentence embeddings come from the
external model; `sims` stands for the `n - 1` adjacent-similarity values
that `_compute_similarities` derives from them.  The empty- and
single-sentence short-circuits return before `sims` is ever consulted. -/
def SemanticChunker.chunk (cfg : SemanticChunkerConfig) (sims : List ℚ)
    (text : String) : List SemanticChunk :=
  let sentences := SemanticChunker.tokenize_sentences text
  if sentences = [] then []
  else if sentences.length = 1 then
    [{ text := sentences.headD "", start_sentence_idx := 0,
       end_sentence_idx := 1 }]
  else
    let breakpoints := find_breakpoints cfg.similarity_threshold sims
    let chunk_boundaries := merge_small_chunks cfg.min_chunk_size sentences breakpoints
    let chunk_boundaries2 := split_large_chunks cfg.max_chunk_size sentences chunk_boundaries
    chunk_boundaries2.map (fun ce =>
      { text := joinSpace (sliceStr sentences ce.1 ce.2),
        start_sentence_idx := ce.1, end_sentence_idx := ce.2 })

/-- The size bound actually guaranteed for a chunk's sentence range: either
a single sentence (which is never split, however long), or the sum of the
range's sentence lengths fits in `max_chunk_size` and the joined text can
exceed it only by the number of joining spaces. -/
def sizeOk (max_chunk_size : Nat) (sentences : List String)
    (p : Nat × Nat) : Prop :=
  p.2 ≤ p.1 + 1 ∨
    (sliceLen sentences p.1 p.2 ≤ max_chunk_size ∧
     (joinSpace (sliceStr sentences p.1 p.2)).length ≤
       max_chunk_size + (p.2 - p.1 - 1))

lemma pairwise_desc_sortPairs (l : List (Nat × ℝ)) :
    (sortPairsByScoreDesc l).Pairwise (fun a b => b.2 ≤ a.2) := by
  unfold sortPairsByScoreDesc
  have h := @List.sorted_mergeSort (Nat × ℝ)
    (fun a b => decide (b.2 ≤ a.2))
    (by
      intro a b c hab hbc
      exact decide_eq_true (le_trans (of_decide_eq_true hbc) (of_decide_eq_true hab)))
    (by
      intro a b
      rcases le_total b.2 a.2 with h | h
      · simp [decide_eq_true h]
      · simp [decide_eq_true h])
    l
  exact h.imp (fun hab => of_decide_eq_true hab)

lemma sumSq_nonneg (v : List ℝ) : 0 ≤ sumSq v := by
  apply List.sum_nonneg
  intro x hx
  rcases List.mem_map.mp hx with ⟨y, _, rfl⟩
  exact mul_self_nonneg y

lemma sumSq_map_div (v : List ℝ) (n : ℝ) :
    sumSq (v.map (fun x => x / n)) = sumSq v / (n * n) := by
  induction v with
  | nil => simp [sumSq]
  | cons x xs ih =>
      simp only [sumSq, List.map_cons, List.sum_cons] at ih ⊢
      rw [ih, div_mul_div_comm, add_div]

/-- Normalizing a nonzero vector produces a vector of L2 norm exactly 1. -/
lemma l2norm_normalizeVector (v : List ℝ) (hv : sumSq v ≠ 0) :
    l2norm (normalizeVector v) = 1 := by
  have h0 : 0 ≤ sumSq v := sumSq_nonneg v
  have hpos : 0 < sumSq v := lt_of_le_of_ne h0 (Ne.symm hv)
  have hsqrt : l2norm v ≠ 0 := by
    have := Real.sqrt_pos.mpr hpos
    exact ne_of_gt this
  unfold normalizeVector
  simp only [if_neg hsqrt]
  unfold l2norm at hsqrt ⊢
  rw [sumSq_map_div, Real.mul_self_sqrt h0, div_self hv, Real.sqrt_one]

/-- C6: if every vector already stored has L2 norm within `1e-6` of 1 and the
external embedder returns a nonzero embedding for each passage, then after
`add_documents` every vector stored in the index has L2 norm within `1e-6`
of 1 (the freshly added rows have norm exactly 1). -/
theorem add_documents_unit_norm (st : FAISSVectorStore)
    (documents : List Document) (embeds : List (List ℝ))
    (hprev : ∀ v ∈ st.vectors, |l2norm v - 1| ≤ 1 / 1000000)
    (hemb : ∀ e ∈ embeds, sumSq e ≠ 0) :
    ∀ w ∈ (st.add_documents documents embeds).1.vectors,
      |l2norm w - 1| ≤ 1 / 1000000 := by
  intro w hw
  unfold FAISSVectorStore.add_documents at hw
  by_cases hd : documents = []
  · rw [if_pos hd] at hw
    exact hprev w hw
  · rw [if_neg hd] at hw
    simp only [List.mem_append, List.mem_map] at hw
    rcases hw with hw | ⟨e, he, rfl⟩
    · exact hprev w hw
    · rw [l2norm_normalizeVector e (hemb e he)]
      norm_num

/-- Witness for C6: adding one document whose embedding is `[3, 4]` to a
fresh store stores `normalizeVector [3, 4]`, a unit-norm vector. -/
theorem add_documents_unit_norm_witness :
    |l2norm (normalizeVector [3, 4]) - 1| ≤ 1 / 1000000 := by
  refine add_documents_unit_norm (FAISSVectorStore.init 2)
    [⟨"d1", "Title", "Content", "faq", none⟩] [[3, 4]] ?_ ?_
    (normalizeVector [3, 4]) ?_
  · intro v hv
    simp [FAISSVectorStore.init] at hv
  · intro e he
    simp only [List.mem_singleton] at he
    subst he
    simp [sumSq]
    norm_num
  · simp [FAISSVectorStore.add_documents, FAISSVectorStore.init]

/-- C7: for every vector-store state, `save(dir)` followed by `load(dir)` on a
freshly constructed `FAISSVectorStore` yields an instance whose
`get_document_count()` equals the pre-save count and whose stored passage ids
are identical to the pre-save ids, in the same order. -/
theorem save_load_roundtrip (st : FAISSVectorStore) (dim : Nat) :
    ((FAISSVectorStore.init dim).load st.save).get_document_count =
      st.get_document_count ∧
    ((FAISSVectorStore.init dim).load st.save).documents.map Document.id =
      st.documents.map Document.id := by
  constructor <;>
    simp [FAISSVectorStore.load, FAISSVectorStore.save, FAISSVectorStore.init,
      FAISSVectorStore.get_document_count]

/-- C1, counterexample: loading from a directory that contains only the binary
index artifact (and no passage-list file) does NOT leave a fresh store in its
as-constructed empty state — the vector index is replaced. -/
theorem load_single_artifact_cex :
    (FAISSVectorStore.init 2).load ⟨some [[1, 0]], none⟩ ≠
      FAISSVectorStore.init 2 := by
  intro h
  have hv : ((FAISSVectorStore.init 2).load ⟨some [[1, 0]], none⟩).vectors = [] := by
    rw [h]; rfl
  simp [FAISSVectorStore.load, FAISSVectorStore.init] at hv

/-- C1, amended: `load` restores each persisted artifact independently.  The
in-memory vector index is replaced iff the binary index file exists, and the
passage list iff the serialized passage-list file exists; only a directory
containing neither artifact leaves the store exactly as it was (no error is
raised in any case). -/
theorem load_per_artifact (st : FAISSVectorStore) (d : SavedDirectory) :
    (d.indexFile = none ∧ d.docsFile = none → st.load d = st) ∧
    (∀ vs, d.indexFile = some vs → (st.load d).vectors = vs) ∧
    (∀ ds, d.docsFile = some ds → (st.load d).documents = ds) ∧
    (d.indexFile = none → (st.load d).vectors = st.vectors) ∧
    (d.docsFile = none → (st.load d).documents = st.documents) := by
  rcases d with ⟨i, f⟩
  cases i <;> cases f <;>
    simp [FAISSVectorStore.load]

/-- Witness for the amended C1 theorem: a directory with neither artifact is a
complete no-op, and a directory with only the index artifact replaces exactly
the vector index. -/
theorem load_per_artifact_witness :
    (FAISSVectorStore.init 2).load ⟨none, none⟩ = FAISSVectorStore.init 2 ∧
    ((FAISSVectorStore.init 2).load ⟨some [[1, 0]], none⟩).vectors = [[1, 0]] ∧
    ((FAISSVectorStore.init 2).load ⟨some [[1, 0]], none⟩).documents = [] :=
  ⟨(load_per_artifact _ _).1 ⟨rfl, rfl⟩,
   (load_per_artifact _ _).2.1 _ rfl,
   (load_per_artifact (FAISSVectorStore.init 2) ⟨some [[1, 0]], none⟩).2.2.2.2 rfl⟩

/-- Core postcondition of the hit-processing pipeline of `search`: at most
`kk` results, sorted non-increasing by score, and every kept score is at
least the threshold. -/
lemma search_post_core (vectors : List (List ℝ)) (docs : List Document)
    (qn : List ℝ) (kk : Nat) (t : ℝ) :
    (((faissSearchIP vectors qn kk).filter (fun p => decide (t ≤ p.2))).map
        (fun p => (⟨docs.getD p.1 ⟨"", "", "", "", none⟩, p.2⟩ :
          RetrievedContext))).length ≤ kk ∧
    (((faissSearchIP vectors qn kk).filter (fun p => decide (t ≤ p.2))).map
        (fun p => (⟨docs.getD p.1 ⟨"", "", "", "", none⟩, p.2⟩ :
          RetrievedContext))).Pairwise
      (fun a b => b.similarity_score ≤ a.similarity_score) ∧
    ∀ r ∈ ((faissSearchIP vectors qn kk).filter
        (fun p => decide (t ≤ p.2))).map
        (fun p => (⟨docs.getD p.1 ⟨"", "", "", "", none⟩, p.2⟩ :
          RetrievedContext)), t ≤ r.similarity_score := by
  refine ⟨?_, ?_, ?_⟩
  · rw [List.length_map]
    calc (List.filter _ _).length
        ≤ (faissSearchIP vectors qn kk).length := List.length_filter_le _ _
      _ ≤ kk := by
          unfold faissSearchIP
          rw [List.length_take]
          exact min_le_left _ _
  · apply List.pairwise_map.mpr
    apply List.Pairwise.sublist (List.filter_sublist _)
    apply List.Pairwise.sublist (List.take_sublist _ _)
    exact pairwise_desc_sortPairs _
  · intro r hr
    rcases List.mem_map.mp hr with ⟨p, hp, rfl⟩
    exact of_decide_eq_true (List.mem_filter.mp hp).2

/-- C3 amended: for every query embedding, every `top_k = k` with `k ≥ 1` and
every threshold `t`, `search` returns at most `k` results, sorted
non-increasing by similarity score, with no returned score below `t`; and on
an empty index it returns the empty list rather than raising.  (For `k = 0`
see the counterexample: Python's `top_k or settings.top_k_results` replaces
a supplied `0` with the configured default.) -/
theorem search_topk_sorted_threshold (st : FAISSVectorStore) (qEmb : List ℝ)
    (k : Nat) (t : ℝ) (hk : k ≠ 0) :
    (st.search qEmb (some k) (some t)).length ≤ k ∧
    (st.search qEmb (some k) (some t)).Pairwise
      (fun a b => b.similarity_score ≤ a.similarity_score) ∧
    (∀ r ∈ st.search qEmb (some k) (some t), t ≤ r.similarity_score) ∧
    (st.vectors = [] → st.search qEmb (some k) (some t) = []) := by
  have hsearch : st.search qEmb (some k) (some t) =
      if st.vectors.length = 0 then []
      else ((faissSearchIP st.vectors (normalizeVector qEmb)
          (min k st.vectors.length)).filter (fun p => decide (t ≤ p.2))).map
          (fun p => ⟨st.documents.getD p.1 ⟨"", "", "", "", none⟩, p.2⟩) := by
    unfold FAISSVectorStore.search
    simp only [if_neg hk]
  rw [hsearch]
  by_cases hv : st.vectors.length = 0
  · rw [if_pos hv]
    exact ⟨Nat.zero_le _, List.Pairwise.nil, fun r hr => absurd hr (by simp),
      fun _ => rfl⟩
  · rw [if_neg hv]
    obtain ⟨h1, h2, h3⟩ := search_post_core st.vectors st.documents
      (normalizeVector qEmb) (min k st.vectors.length) t
    exact ⟨le_trans h1 (min_le_left _ _), h2, h3,
      fun hnil => absurd (by simp [hnil] : st.vectors.length = 0) hv⟩

/-- Witness for C3: a concrete instantiation at `k = 3`, `t = 1/2` on the
empty store. -/
theorem search_topk_sorted_threshold_witness :
    (3 : Nat) ≠ 0 ∧
    (((FAISSVectorStore.init 2).search [1, 0] (some 3) (some (1 / 2))).length ≤ 3 ∧
      ((FAISSVectorStore.init 2).search [1, 0] (some 3)
          (some (1 / 2))).Pairwise
        (fun a b => b.similarity_score ≤ a.similarity_score) ∧
      (∀ r ∈ (FAISSVectorStore.init 2).search [1, 0] (some 3) (some (1 / 2)),
        (1 : ℝ) / 2 ≤ r.similarity_score) ∧
      ((FAISSVectorStore.init 2).vectors = [] →
        (FAISSVectorStore.init 2).search [1, 0] (some 3) (some (1 / 2)) = [])) :=
  ⟨by decide,
   search_topk_sorted_threshold (FAISSVectorStore.init 2) [1, 0] 3 (1 / 2)
     (by decide)⟩

/-- C3 counterexample: with `top_k = 0` supplied, `search` on a one-document
store still returns a result (Python's `top_k or settings.top_k_results`
treats `0` as "not given" and uses the default `5`), so "at most `k`
results" fails at `k = 0`. -/
theorem search_topk_zero_cex :
    ¬ ((oneDocStore.search [1, 0] (some 0) (some 0)).length ≤ 0) := by
  have h1 : sumSq [(1 : ℝ), 0] = 1 := by simp [sumSq]
  have hnorm : normalizeVector [(1 : ℝ), 0] = [1, 0] := by
    unfold normalizeVector l2norm
    rw [h1, Real.sqrt_one]
    norm_num
  have hdot : dot [(1 : ℝ), 0] [(1 : ℝ), 0] = 1 := by
    simp [dot]
  have hsearch : oneDocStore.search [1, 0] (some 0) (some 0) =
      [⟨⟨"d1", "Suspension", "Domain suspension policy", "policy", none⟩, 1⟩] := by
    unfold FAISSVectorStore.search oneDocStore
    simp only [hnorm]
    unfold faissSearchIP sortPairsByScoreDesc
    simp only [List.map_cons, List.map_nil, hdot, List.enum, List.mergeSort_singleton]
    norm_num [List.filter, decide_eq_true (le_refl (0 : ℝ))]
  rw [hsearch]
  decide

/-! ### BM25 theorems -/

/-- A stable mergeSort under the reversed order yields a list whose score
projection is non-increasing. -/
lemma pairwise_desc_mergeSort {α : Type _} (f : α → ℝ) (l : List α) :
    (l.mergeSort (fun a b => decide (f b ≤ f a))).Pairwise
      (fun a b => f b ≤ f a) := by
  have h := @List.sorted_mergeSort α (fun a b => decide (f b ≤ f a))
    (fun a b c hab hbc =>
      decide_eq_true (le_trans (of_decide_eq_true hbc) (of_decide_eq_true hab)))
    (fun a b => by
      rcases le_total (f b) (f a) with h | h
      · simp [decide_eq_true h]
      · simp [decide_eq_true h])
    l
  exact h.imp (fun hab => of_decide_eq_true hab)

/-- A left fold that skips elements satisfying `P` and otherwise adds `g`
equals the starting value plus the sum over non-skipped elements. -/
lemma foldl_if_skip_eq_sum (P : String → Prop) [DecidablePred P]
    (g : String → ℝ) (l : List String) (acc : ℝ) :
    l.foldl (fun score term => if P term then score else score + g term) acc =
      acc + (l.map (fun t => if P t then 0 else g t)).sum := by
  induction l generalizing acc with
  | nil => simp
  | cons t ts ih =>
    rw [List.foldl_cons, List.map_cons, List.sum_cons, ih]
    by_cases h : P t
    · rw [if_pos h, if_pos h, zero_add]
    · rw [if_neg h, if_neg h]
      ring

/-- The `continue`-based scoring loop of `BM25.score` computes the closed
sum over query tokens, with tokens of zero document frequency contributing
zero. -/
lemma docScore_eq_sum (m : BM25) (qts dt : List String) (dlen : Nat) :
    m.docScore qts dt dlen =
      (qts.map (fun t =>
        if 0 < docFreq m.corpus t then
          m.idf t * (((dt.count t : ℝ) * (m.k1 + 1)) /
            ((dt.count t : ℝ) +
              m.k1 * (1 - m.b + m.b * (dlen : ℝ) / m.avg_doc_length)))
        else 0)).sum := by
  have h := foldl_if_skip_eq_sum (fun term => docFreq m.corpus term = 0)
    (fun term => m.idf term * (((dt.count term : ℝ) * (m.k1 + 1)) /
      ((dt.count term : ℝ) +
        m.k1 * (1 - m.b + m.b * (dlen : ℝ) / m.avg_doc_length))))
    qts 0
  calc m.docScore qts dt dlen
      = 0 + (qts.map (fun t =>
          if docFreq m.corpus t = 0 then 0
          else m.idf t * (((dt.count t : ℝ) * (m.k1 + 1)) /
            ((dt.count t : ℝ) +
              m.k1 * (1 - m.b + m.b * (dlen : ℝ) / m.avg_doc_length))))).sum :=
        h
    _ = _ := by
        rw [zero_add]
        congr 1
        apply List.map_congr_left
        intro t _
        by_cases hdf : docFreq m.corpus t = 0
        · rw [if_pos hdf, if_neg (by omega)]
        · rw [if_neg hdf, if_pos (Nat.pos_of_ne_zero hdf)]

/-- The pre-sort `(doc_id, score)` list built by `BM25.score` on a fitted
non-empty corpus equals the list of spec-formula scores, one per document. -/
lemma score_pre_sort_eq (documents : List Document) (query : String)
    (hne : documents ≠ []) :
    ((BM25.init.fit documents).corpus.enum.map (fun p =>
      ((BM25.init.fit documents).doc_ids.getD p.1 "",
       (BM25.init.fit documents).docScore (bm25Tokenize query) p.2
         ((BM25.init.fit documents).doc_lengths.getD p.1 0)))) =
    bm25SpecResult documents query := by
  have havg : (BM25.init.fit documents).avg_doc_length =
      (((documents.map (fun d =>
          bm25Tokenize (d.title ++ " " ++ d.content))).map List.length).sum : ℝ) /
        (documents.length : ℝ) := by
    show (((documents.map (fun d =>
        bm25Tokenize (d.title ++ " " ++ d.content))).map List.length).sum : ℝ) /
        ((max documents.length 1 : ℕ) : ℝ) = _
    rw [Nat.max_eq_left (List.length_pos.mpr hne)]
  have hcorpus : (BM25.init.fit documents).corpus =
      documents.map (fun d => bm25Tokenize (d.title ++ " " ++ d.content)) := rfl
  have hids : (BM25.init.fit documents).doc_ids =
      documents.map Document.id := rfl
  have hlens : (BM25.init.fit documents).doc_lengths =
      (documents.map (fun d =>
        bm25Tokenize (d.title ++ " " ++ d.content))).map List.length := rfl
  rw [hcorpus, hids, hlens, List.enum_map, List.map_map]
  simp only [bm25SpecResult]
  apply List.map_congr_left
  intro p hp
  have hp1 : documents[p.1]? = some p.2 := List.mem_enum_iff_getElem?.mp hp
  have hid : (documents.map Document.id).getD p.1 "" = p.2.id := by
    rw [List.getD_eq_getElem?_getD, List.getElem?_map, hp1]
    rfl
  have hlen : ((documents.map (fun d =>
      bm25Tokenize (d.title ++ " " ++ d.content))).map List.length).getD p.1 0 =
      (bm25Tokenize (p.2.title ++ " " ++ p.2.content)).length := by
    rw [List.getD_eq_getElem?_getD, List.getElem?_map, List.getElem?_map, hp1]
    rfl
  simp only [Function.comp, Prod.map, id]
  rw [hid, hlen, docScore_eq_sum, havg]
  rfl

/-- C4: on every fitted non-empty corpus and every query, `BM25.score`
returns one `(passage_id, score)` pair per corpus document (a permutation
of the per-document spec-formula list), sorted non-increasing by score;
each document's score is the sum over query tokens present in the fitted
vocabulary of `idf(t) * tf*(k1+1) / (tf + k1*(1-b+b*|d|/avgdl))` with
`k1 = 1.5`, `b = 0.75` and `idf(t) = ln((N-df+0.5)/(df+0.5)+1)`, unknown
query tokens contributing zero rather than raising. -/
theorem bm25_score_formula (documents : List Document) (query : String)
    (hne : documents ≠ []) :
    ((BM25.init.fit documents).score query).Perm
      (bm25SpecResult documents query) ∧
    ((BM25.init.fit documents).score query).Pairwise
      (fun a b => b.2 ≤ a.2) := by
  constructor
  · have hperm : ((BM25.init.fit documents).score query).Perm
        ((BM25.init.fit documents).corpus.enum.map (fun p =>
          ((BM25.init.fit documents).doc_ids.getD p.1 "",
           (BM25.init.fit documents).docScore (bm25Tokenize query) p.2
             ((BM25.init.fit documents).doc_lengths.getD p.1 0)))) :=
      List.mergeSort_perm _ _
    exact score_pre_sort_eq documents query hne ▸ hperm
  · exact pairwise_desc_mergeSort Prod.snd _

/-- Witness for C4 at a one-document corpus and the query `"hello"`. -/
theorem bm25_score_formula_witness :
    ([⟨"d1", "Hello", "hello world", "faq", none⟩] : List Document) ≠ [] ∧
    (((BM25.init.fit [⟨"d1", "Hello", "hello world", "faq", none⟩]).score
        "hello").Perm
      (bm25SpecResult [⟨"d1", "Hello", "hello world", "faq", none⟩] "hello") ∧
     ((BM25.init.fit [⟨"d1", "Hello", "hello world", "faq", none⟩]).score
        "hello").Pairwise (fun a b => b.2 ≤ a.2)) :=
  ⟨by simp, bm25_score_formula _ _ (by simp)⟩

/-! ### Hybrid ranker theorems -/

lemma foldl_min_le_init (x : ℝ) (xs : List ℝ) : xs.foldl min x ≤ x := by
  induction xs generalizing x with
  | nil => simp
  | cons y ys ih => exact le_trans (ih (min x y)) (min_le_left x y)

lemma foldl_min_le_mem (x y : ℝ) (xs : List ℝ) (hy : y ∈ xs) :
    xs.foldl min x ≤ y := by
  induction xs generalizing x with
  | nil => cases hy
  | cons z zs ih =>
    rw [List.foldl_cons]
    rcases List.mem_cons.mp hy with rfl | hy'
    · exact le_trans (foldl_min_le_init (min x y) zs) (min_le_right x y)
    · exact ih _ hy'

lemma init_le_foldl_max (x : ℝ) (xs : List ℝ) : x ≤ xs.foldl max x := by
  induction xs generalizing x with
  | nil => simp
  | cons y ys ih => exact le_trans (le_max_left x y) (ih (max x y))

lemma mem_le_foldl_max (x y : ℝ) (xs : List ℝ) (hy : y ∈ xs) :
    y ≤ xs.foldl max x := by
  induction xs generalizing x with
  | nil => cases hy
  | cons z zs ih =>
    rw [List.foldl_cons]
    rcases List.mem_cons.mp hy with rfl | hy'
    · exact le_trans (le_max_right x y) (init_le_foldl_max (max x y) zs)
    · exact ih _ hy'

lemma foldl_min_const (c : ℝ) (xs : List ℝ) (h : ∀ s ∈ xs, s = c) :
    xs.foldl min c = c := by
  induction xs with
  | nil => rfl
  | cons z zs ih =>
    rw [List.foldl_cons, h z (List.mem_cons_self z zs), min_self]
    exact ih (fun s hs => h s (List.mem_cons_of_mem z hs))

lemma foldl_max_const (c : ℝ) (xs : List ℝ) (h : ∀ s ∈ xs, s = c) :
    xs.foldl max c = c := by
  induction xs with
  | nil => rfl
  | cons z zs ih =>
    rw [List.foldl_cons, h z (List.mem_cons_self z zs), max_self]
    exact ih (fun s hs => h s (List.mem_cons_of_mem z hs))

/-- C5: min-max normalization maps every score of a non-empty list into
`[0, 1]`; `[0.1, 0.5, 0.9]` maps exactly to `[0.0, 0.5, 1.0]`; and when all
input scores are equal (including all-zero) every normalized score is `0.5`
rather than a division by zero occurring. -/
theorem normalize_scores_props :
    (∀ scores : List ℝ, scores ≠ [] →
        ∀ x ∈ normalize_scores scores, 0 ≤ x ∧ x ≤ 1) ∧
    normalize_scores [0.1, 0.5, 0.9] = [0, 0.5, 1] ∧
    (∀ (scores : List ℝ) (c : ℝ), (∀ s ∈ scores, s = c) →
        ∀ x ∈ normalize_scores scores, x = 1 / 2) := by
  refine ⟨?_, ?_, ?_⟩
  · rintro (_ | ⟨x, xs⟩) hne y hy
    · cases hne rfl
    · simp only [normalize_scores] at hy
      by_cases heq : xs.foldl max x = xs.foldl min x
      · rw [if_pos heq] at hy
        rw [List.eq_of_mem_replicate hy]
        norm_num
      · rw [if_neg heq] at hy
        rcases List.mem_map.mp hy with ⟨s, hs, rfl⟩
        have hmin : xs.foldl min x ≤ s := by
          rcases List.mem_cons.mp hs with rfl | hs'
          · exact foldl_min_le_init _ _
          · exact foldl_min_le_mem _ _ _ hs'
        have hmax : s ≤ xs.foldl max x := by
          rcases List.mem_cons.mp hs with rfl | hs'
          · exact init_le_foldl_max _ _
          · exact mem_le_foldl_max _ _ _ hs'
        have hlt : xs.foldl min x < xs.foldl max x :=
          lt_of_le_of_ne (le_trans (foldl_min_le_init _ _)
            (init_le_foldl_max _ _)) (fun h => heq h.symm)
        constructor
        · exact div_nonneg (sub_nonneg.mpr hmin) (le_of_lt (sub_pos.mpr hlt))
        · rw [div_le_one (sub_pos.mpr hlt)]
          exact sub_le_sub_right hmax _
  · have h1 : min (0.1 : ℝ) 0.5 = 0.1 := min_eq_left (by norm_num)
    have h2 : min (0.1 : ℝ) 0.9 = 0.1 := min_eq_left (by norm_num)
    have h3 : max (0.1 : ℝ) 0.5 = 0.5 := max_eq_right (by norm_num)
    have h4 : max (0.5 : ℝ) 0.9 = 0.9 := max_eq_right (by norm_num)
    simp only [normalize_scores, List.foldl_cons, List.foldl_nil, h1, h2, h3, h4]
    rw [if_neg (by norm_num)]
    norm_num
  · rintro (_ | ⟨x, xs⟩) c hc y hy
    · cases hy
    · have hx : x = c := hc x (List.mem_cons_self x xs)
      subst hx
      have hxs : ∀ s ∈ xs, s = x := fun s hs => hc s (List.mem_cons_of_mem x hs)
      simp only [normalize_scores] at hy
      rw [foldl_min_const x xs hxs, foldl_max_const x xs hxs, if_pos rfl] at hy
      exact List.eq_of_mem_replicate hy

/-- Witness for C5: the bounds hold on `[0.1, 0.5, 0.9]` and the all-equal
list `[2, 2]` normalizes to all `0.5`. -/
theorem normalize_scores_props_witness :
    (([0.1, 0.5, 0.9] : List ℝ) ≠ [] ∧
      ∀ x ∈ normalize_scores [0.1, 0.5, 0.9], 0 ≤ x ∧ x ≤ 1) ∧
    ((∀ s ∈ ([2, 2] : List ℝ), s = 2) ∧
      ∀ x ∈ normalize_scores [2, 2], x = 1 / 2) :=
  ⟨⟨by simp, normalize_scores_props.1 _ (by simp)⟩,
   ⟨by simp, normalize_scores_props.2.2 _ 2 (by simp)⟩⟩

/-- C9: `HybridSearchService.search` invoked on a freshly constructed
service — before `index_documents` has ever been called, so `_initialized`
is still false — returns the empty list for every query, query embedding,
reranker, `top_k` and threshold, and raises no exception. -/
theorem uninitialized_search_empty (vs : Option FAISSVectorStore)
    (sw kw : ℝ) (ur : Bool) (query : String) (qEmb : List ℝ)
    (rerank : List HybridSearchResult → Nat → List HybridSearchResult)
    (top_k : Nat) (semantic_threshold : ℝ) :
    (HybridSearchService.init vs sw kw ur).search query qEmb rerank top_k
      semantic_threshold = [] := rfl

/-- C10: in `to_retrieved_context`, a result whose `rerank_score` is `None`
or exactly `0.0` reports its `combined_score` as the similarity score (both
values are falsy in Python), and only a result with a nonzero rerank score
reports the rerank score. -/
theorem to_retrieved_context_truthiness (results : List HybridSearchResult) :
    (HybridSearchService.to_retrieved_context results).map
        RetrievedContext.similarity_score =
      results.map (fun r =>
        if r.rerank_score = none ∨ r.rerank_score = some 0 then r.combined_score
        else r.rerank_score.getD 0) := by
  unfold HybridSearchService.to_retrieved_context
  rw [List.map_map]
  apply List.map_congr_left
  intro r _
  rcases h : r.rerank_score with _ | v
  · simp [Function.comp, h]
  · by_cases hv : v = 0
    · subst hv
      simp [Function.comp, h]
    · simp [Function.comp, h, hv]

/-! ### Semantic chunker theorems -/

/-- The single-sentence short-circuit of `chunk` (shared helper): whenever
the tokenizer yields exactly one sentence, `chunk` returns it verbatim as
the sole chunk, never consulting the similarity array. -/
lemma chunk_of_single (cfg : SemanticChunkerConfig) (sims : List ℚ)
    (text s : String) (h : SemanticChunker.tokenize_sentences text = [s]) :
    SemanticChunker.chunk cfg sims text = [⟨s, 0, 1⟩] := by
  unfold SemanticChunker.chunk
  rw [h]
  simp

lemma collapseWsAux_replicate_a (b : Bool) (n : Nat) :
    collapseWsAux b (List.replicate n 'a') = List.replicate n 'a' := by
  induction n generalizing b with
  | zero => rfl
  | succ n ih =>
    rw [List.replicate_succ]
    simp only [collapseWsAux, show isPySpace 'a' = false from rfl,
      Bool.false_eq_true, if_false]
    rw [ih false]

lemma dropWhile_replicate_a (n : Nat) :
    List.dropWhile isPySpace (List.replicate n 'a') = List.replicate n 'a' := by
  cases n with
  | zero => rfl
  | succ m =>
    rw [List.replicate_succ, List.dropWhile_cons]
    simp [show isPySpace 'a' = false from rfl]

lemma splitSentencesAux_replicate_a (n : Nat) :
    ∀ cur, splitSentencesAux cur (List.replicate n 'a') =
      [cur.reverse ++ List.replicate n 'a'] := by
  induction n with
  | zero =>
    intro cur
    simp [splitSentencesAux]
  | succ n ih =>
    intro cur
    cases n with
    | zero =>
      rw [show splitSentencesAux cur (List.replicate 1 'a') =
            splitSentencesAux ('a' :: cur) [] from rfl]
      simp [splitSentencesAux, List.replicate]
    | succ m =>
      rw [show splitSentencesAux cur (List.replicate (m + 2) 'a') =
            splitSentencesAux ('a' :: cur) (List.replicate (m + 1) 'a') from rfl]
      rw [ih ('a' :: cur)]
      simp [List.replicate_succ]

/-- A run of `n ≥ 1` letters `a` tokenizes to itself as a single sentence. -/
lemma tokenize_replicate_a (n : Nat) (hn : n ≠ 0) :
    SemanticChunker.tokenize_sentences (String.mk (List.replicate n 'a')) =
      [String.mk (List.replicate n 'a')] := by
  have hstrip : stripChars (List.replicate n 'a') = List.replicate n 'a' := by
    unfold stripChars
    rw [dropWhile_replicate_a, List.reverse_replicate, dropWhile_replicate_a,
      List.reverse_replicate]
  simp only [SemanticChunker.tokenize_sentences]
  rw [show collapseWs (List.replicate n 'a') = List.replicate n 'a'
      from collapseWsAux_replicate_a false n]
  rw [hstrip, splitSentencesAux_replicate_a n []]
  simp only [List.reverse_nil, List.nil_append, List.map_cons, List.map_nil,
    hstrip]
  rw [List.filter_cons]
  simp [hn]

/-- C8: `chunk` on input whose sentence tokenization is empty returns `[]`,
and on input that tokenizes to exactly one sentence returns exactly one
chunk whose text is that sentence — in both cases before the similarity
array (and hence the embedding, breakpoint, merge and split machinery) is
ever consulted, and without error. -/
theorem chunk_empty_single (cfg : SemanticChunkerConfig) :
    (∀ sims : List ℚ, SemanticChunker.chunk cfg sims "" = []) ∧
    (∀ (text s : String) (sims : List ℚ),
      SemanticChunker.tokenize_sentences text = [s] →
      SemanticChunker.chunk cfg sims text = [⟨s, 0, 1⟩]) := by
  constructor
  · intro sims
    rfl
  · intro text s sims h
    unfold SemanticChunker.chunk
    rw [h]
    simp

/-- Witness for C8 on `"One sentence only."`. -/
theorem chunk_empty_single_witness :
    SemanticChunker.tokenize_sentences "One sentence only." =
      ["One sentence only."] ∧
    SemanticChunker.chunk SemanticChunkerConfig.default []
        "One sentence only." = [⟨"One sentence only.", 0, 1⟩] :=
  ⟨by decide,
   (chunk_empty_single SemanticChunkerConfig.default).2 _ _ _ (by decide)⟩

lemma joinSpace_length_ge (l : List String) :
    (l.map String.length).sum ≤ (joinSpace l).length := by
  induction l with
  | nil => simp [joinSpace]
  | cons s rest ih =>
    cases rest with
    | nil => simp [joinSpace]
    | cons t ts =>
      have hj : joinSpace (s :: t :: ts) = s ++ " " ++ joinSpace (t :: ts) := rfl
      rw [hj, String.length_append, String.length_append, List.map_cons,
        List.sum_cons]
      have h1 : (" " : String).length = 1 := rfl
      omega

lemma joinSpace_length_le (l : List String) :
    (joinSpace l).length ≤ (l.map String.length).sum + (l.length - 1) := by
  induction l with
  | nil => simp [joinSpace]
  | cons s rest ih =>
    cases rest with
    | nil => simp [joinSpace]
    | cons t ts =>
      have hj : joinSpace (s :: t :: ts) = s ++ " " ++ joinSpace (t :: ts) := rfl
      rw [hj, String.length_append, String.length_append, List.map_cons,
        List.sum_cons]
      have h1 : (" " : String).length = 1 := rfl
      simp only [List.length_cons] at ih ⊢
      omega

lemma sliceLen_eq_slice_sum (l : List String) (s e : Nat) :
    sliceLen l s e = ((sliceStr l s e).map String.length).sum := by
  unfold sliceLen sliceStr
  generalize e - s = m
  induction m generalizing s with
  | zero => simp
  | succ m ih =>
    rw [List.range'_succ]
    rcases hd : l.drop s with _ | ⟨x, xs⟩
    · have hle : l.length ≤ s := List.drop_eq_nil_iff.mp hd
      have h0 : l.getD s "" = "" := by
        rw [List.getD_eq_getElem?_getD, List.getElem?_eq_none hle]
        rfl
      have hd2 : l.drop (s + 1) = [] := by
        rw [List.drop_eq_nil_iff]
        omega
      have hih := ih (s + 1)
      rw [hd2] at hih
      rw [List.map_cons, List.sum_cons, h0, hih]
      simp
    · have hx : l.getD s "" = x := by
        have h0 : (l.drop s)[0]? = some x := by rw [hd]; simp
        rw [List.getElem?_drop] at h0
        rw [List.getD_eq_getElem?_getD, show l[s]? = some x by simpa using h0]
        rfl
      have hd2 : l.drop (s + 1) = xs := by
        have hdd : l.drop (s + 1) = (l.drop s).drop 1 := by
          rw [List.drop_drop]
        rw [hdd, hd]
        rfl
      have hih := ih (s + 1)
      rw [hd2] at hih
      rw [List.map_cons, List.sum_cons, hx, List.take_succ_cons,
        List.map_cons, List.sum_cons, hih]

lemma tokenize_sentences_nonempty (text : String) :
    ∀ s ∈ SemanticChunker.tokenize_sentences text, 1 ≤ s.length := by
  intro s hs
  unfold SemanticChunker.tokenize_sentences at hs
  rcases List.mem_map.mp hs with ⟨l, hl, rfl⟩
  have hdec := List.of_mem_filter hl
  have hne : l ≠ [] := of_decide_eq_true hdec
  have : (String.mk l).length = l.length := rfl
  rw [this]
  exact List.length_pos.mpr hne

/-- Invariant of the greedy re-splitting loop: provided every sentence in
the scanned range has positive length, every emitted sub-segment is a
single sentence or has sentence-length sum at most `max_chunk_size`. -/
lemma greedyAux_sizeOk (maxsz : Nat) (f : Nat → Nat) :
    ∀ (fuel i cs clen : Nat),
      cs ≤ i →
      clen = ((List.range' cs (i - cs)).map f).sum →
      (i ≤ cs + 1 ∨ clen ≤ maxsz) →
      (∀ j, cs ≤ j → j < i + fuel → 1 ≤ f j) →
      ∀ p ∈ greedyAux maxsz f fuel i cs clen,
        p.2 ≤ p.1 + 1 ∨ ((List.range' p.1 (p.2 - p.1)).map f).sum ≤ maxsz := by
  intro fuel
  induction fuel with
  | zero =>
    intro i cs clen h1 h2 h3 _ p hp
    simp only [greedyAux] at hp
    by_cases hlt : cs < i
    · rw [if_pos hlt] at hp
      rw [List.mem_singleton.mp hp]
      rcases h3 with h3 | h3
      · exact Or.inl h3
      · exact Or.inr (h2 ▸ h3)
    · rw [if_neg hlt] at hp
      cases hp
  | succ fuel ih =>
    intro i cs clen h1 h2 h3 h4 p hp
    simp only [greedyAux] at hp
    by_cases hc : maxsz < clen + f i ∧ 0 < clen
    · rw [if_pos hc] at hp
      rcases List.mem_cons.mp hp with rfl | hp'
      · rcases h3 with h3 | h3
        · exact Or.inl h3
        · exact Or.inr (h2 ▸ h3)
      · refine ih (i + 1) i (f i) (Nat.le_succ i) ?_
          (Or.inl (le_refl (i + 1))) ?_ p hp'
        · simp
        · intro j hj1 hj2
          exact h4 j (le_trans h1 hj1) (by omega)
    · rw [if_neg hc] at hp
      refine ih (i + 1) cs (clen + f i) (by omega) ?_ ?_ ?_ p hp
      · have hm : i + 1 - cs = (i - cs) + 1 := by omega
        rw [hm, List.range'_concat, List.map_append, List.sum_append]
        have hcs : cs + 1 * (i - cs) = i := by omega
        rw [hcs]
        simp [h2]
      · by_cases hA : clen + f i ≤ maxsz
        · exact Or.inr hA
        · have hclen : clen = 0 := by omega
          have hics : i = cs := by
            by_contra hne
            have hcs : cs < i := lt_of_le_of_ne h1 (Ne.symm hne)
            have hmem : cs ∈ List.range' cs (i - cs) := by
              rw [List.mem_range']
              exact ⟨0, by omega, by omega⟩
            have hle : f cs ≤ ((List.range' cs (i - cs)).map f).sum :=
              List.single_le_sum (fun x _ => Nat.zero_le x) _
                (List.mem_map_of_mem f hmem)
            have hf : 1 ≤ f cs := h4 cs (le_refl cs) (by omega)
            omega
          exact Or.inl (by omega)
      · intro j hj1 hj2
        exact h4 j hj1 (by omega)

/-- Segments produced by the merge loop never extend past a bound that
covers the running segment and every pending chunk end. -/
lemma mergeLoop_snd_le (minsz N : Nat) (sentences : List String) :
    ∀ (chunks : List (Nat × Nat)) (cur : Nat × Nat) (clen : Nat),
      cur.2 ≤ N → (∀ ce ∈ chunks, ce.2 ≤ N) →
      ∀ p ∈ mergeLoop minsz sentences chunks cur clen, p.2 ≤ N := by
  intro chunks
  induction chunks with
  | nil =>
    intro cur clen h1 _ p hp
    simp only [mergeLoop] at hp
    rw [List.mem_singleton.mp hp]
    exact h1
  | cons ce rest ih =>
    intro cur clen h1 h2 p hp
    simp only [mergeLoop] at hp
    by_cases hlt : clen < minsz
    · rw [if_pos hlt] at hp
      exact ih (cur.1, ce.2) _ (h2 ce (List.mem_cons_self _ _))
        (fun x hx => h2 x (List.mem_cons_of_mem _ hx)) p hp
    · rw [if_neg hlt] at hp
      rcases List.mem_cons.mp hp with rfl | hp'
      · exact h1
      · exact ih ce _ (h2 ce (List.mem_cons_self _ _))
          (fun x hx => h2 x (List.mem_cons_of_mem _ hx)) p hp'

/-- Every segment produced by `_merge_small_chunks` ends at or before the
number of sentences, provided the breakpoints do. -/
lemma merge_small_chunks_snd_le (minsz : Nat) (sentences : List String)
    (breakpoints : List Nat)
    (hbp : ∀ bp ∈ breakpoints, bp + 1 ≤ sentences.length) :
    ∀ p ∈ merge_small_chunks minsz sentences breakpoints,
      p.2 ≤ sentences.length := by
  intro p hp
  simp only [merge_small_chunks] at hp
  by_cases hb : breakpoints = []
  · rw [if_pos hb] at hp
    rw [List.mem_singleton.mp hp]
  · rw [if_neg hb] at hp
    have htail : ∀ x ∈ (0 :: breakpoints.map (fun bp => bp + 1) ++
        [sentences.length]).tail, x ≤ sentences.length := by
      intro x hx
      simp only [List.cons_append, List.tail_cons, List.mem_append,
        List.mem_map, List.mem_singleton] at hx
      rcases hx with ⟨bp, hbp', rfl⟩ | rfl
      · exact hbp bp hbp'
      · exact le_refl _
    have hzip : ∀ ce ∈ (0 :: breakpoints.map (fun bp => bp + 1) ++
        [sentences.length]).zip (0 :: breakpoints.map (fun bp => bp + 1) ++
        [sentences.length]).tail, ce.2 ≤ sentences.length := by
      rintro ⟨a, b⟩ hce
      exact htail b (List.of_mem_zip hce).2
    rcases hch : (0 :: breakpoints.map (fun bp => bp + 1) ++
        [sentences.length]).zip (0 :: breakpoints.map (fun bp => bp + 1) ++
        [sentences.length]).tail with _ | ⟨c0, rest⟩
    · rw [hch] at hp
      cases hp
    · rw [hch] at hp
      refine mergeLoop_snd_le minsz sentences.length sentences rest c0 _ ?_ ?_ p hp
      · exact hzip c0 (hch ▸ List.mem_cons_self _ _)
      · intro x hx
        exact hzip x (hch ▸ List.mem_cons_of_mem _ hx)

/-- Every segment produced by `_split_large_chunks` satisfies the size
bound `sizeOk`, provided all sentences are nonempty and all input segments
end in range. -/
lemma split_large_chunks_sizeOk (maxsz : Nat) (sentences : List String)
    (hsent : ∀ s ∈ sentences, 1 ≤ s.length)
    (bounds : List (Nat × Nat))
    (hbounds : ∀ ce ∈ bounds, ce.2 ≤ sentences.length) :
    ∀ p ∈ split_large_chunks maxsz sentences bounds,
      sizeOk maxsz sentences p := by
  intro p hp
  simp only [split_large_chunks] at hp
  rcases List.mem_flatMap.mp hp with ⟨ce, hce, hmem⟩
  by_cases hsmall : (joinSpace (sliceStr sentences ce.1 ce.2)).length ≤ maxsz
  · rw [if_pos hsmall] at hmem
    rw [List.mem_singleton.mp hmem]
    refine Or.inr ⟨?_, ?_⟩
    · calc sliceLen sentences ce.1 ce.2
          = ((sliceStr sentences ce.1 ce.2).map String.length).sum :=
            sliceLen_eq_slice_sum sentences ce.1 ce.2
        _ ≤ (joinSpace (sliceStr sentences ce.1 ce.2)).length :=
            joinSpace_length_ge _
        _ ≤ maxsz := hsmall
    · exact le_trans hsmall (Nat.le_add_right _ _)
  · rw [if_neg hsmall] at hmem
    have hce2 : ce.2 ≤ sentences.length := hbounds ce hce
    have hgood := greedyAux_sizeOk maxsz (sentLenAt sentences)
      (ce.2 - ce.1) ce.1 ce.1 0 (le_refl _) (by simp)
      (Or.inl (Nat.le_succ _)) ?_ p hmem
    · rcases hgood with h | h
      · exact Or.inl h
      · refine Or.inr ⟨h, ?_⟩
        have h1 := joinSpace_length_le (sliceStr sentences p.1 p.2)
        have h2 := sliceLen_eq_slice_sum sentences p.1 p.2
        have h3 : (sliceStr sentences p.1 p.2).length ≤ p.2 - p.1 :=
          List.length_take_le _ _
        have h4 : sliceLen sentences p.1 p.2 ≤ maxsz := h
        omega
    · intro j hj1 hj2
      have hjn : j < sentences.length := by omega
      have hg : sentences.getD j "" = sentences[j] := by
        rw [List.getD_eq_getElem?_getD, List.getElem?_eq_getElem hjn]
        rfl
      show 1 ≤ (sentences.getD j "").length
      rw [hg]
      exact hsent _ (List.getElem_mem hjn)

/-- C2 amended: for every configuration, every input text and every
similarity array of the correct length (`n - 1` for `n` sentences), every
chunk either consists of a single sentence (length unbounded — a sentence
is never split), or the sum of its sentences' lengths is at most
`max_chunk_size` and its joined text exceeds `max_chunk_size` by at most
the number of joining spaces (`#sentences - 1`), which the greedy
re-splitter does not count. -/
theorem chunk_size_bound (cfg : SemanticChunkerConfig) (sims : List ℚ)
    (text : String)
    (hsims : sims.length =
      (SemanticChunker.tokenize_sentences text).length - 1) :
    ∀ c ∈ SemanticChunker.chunk cfg sims text,
      c.end_sentence_idx ≤ c.start_sentence_idx + 1 ∨
      (sliceLen (SemanticChunker.tokenize_sentences text)
          c.start_sentence_idx c.end_sentence_idx ≤ cfg.max_chunk_size ∧
       c.text.length ≤ cfg.max_chunk_size +
         (c.end_sentence_idx - c.start_sentence_idx - 1)) := by
  intro c hc
  simp only [SemanticChunker.chunk] at hc
  by_cases h0 : SemanticChunker.tokenize_sentences text = []
  · rw [if_pos h0] at hc
    cases hc
  · rw [if_neg h0] at hc
    by_cases h1 : (SemanticChunker.tokenize_sentences text).length = 1
    · rw [if_pos h1] at hc
      rw [List.mem_singleton.mp hc]
      exact Or.inl (by simp)
    · rw [if_neg h1] at hc
      rcases List.mem_map.mp hc with ⟨p, hp, rfl⟩
      have hlen2 : 2 ≤ (SemanticChunker.tokenize_sentences text).length := by
        have := List.length_pos.mpr h0
        omega
      have hbp : ∀ bp ∈ find_breakpoints cfg.similarity_threshold sims,
          bp + 1 ≤ (SemanticChunker.tokenize_sentences text).length := by
        intro bp hbp'
        have hr : bp < sims.length :=
          List.mem_range.mp (List.mem_of_mem_filter hbp')
        omega
      have hmerge := merge_small_chunks_snd_le cfg.min_chunk_size
        (SemanticChunker.tokenize_sentences text) _ hbp
      have hsplit := split_large_chunks_sizeOk cfg.max_chunk_size
        (SemanticChunker.tokenize_sentences text)
        (tokenize_sentences_nonempty text) _ hmerge p hp
      rcases hsplit with h | ⟨ha, hb⟩
      · exact Or.inl h
      · exact Or.inr ⟨ha, hb⟩

/-- Witness for the amended C2 on a two-sentence text with similarity
array `[9/10]`. -/
theorem chunk_size_bound_witness :
    ([(9 : ℚ)/10].length =
      (SemanticChunker.tokenize_sentences "Alpha beta. Gamma delta.").length
        - 1) ∧
    ∀ c ∈ SemanticChunker.chunk SemanticChunkerConfig.default [(9 : ℚ)/10]
        "Alpha beta. Gamma delta.",
      c.end_sentence_idx ≤ c.start_sentence_idx + 1 ∨
      (sliceLen (SemanticChunker.tokenize_sentences "Alpha beta. Gamma delta.")
          c.start_sentence_idx c.end_sentence_idx ≤
            SemanticChunkerConfig.default.max_chunk_size ∧
       c.text.length ≤ SemanticChunkerConfig.default.max_chunk_size +
         (c.end_sentence_idx - c.start_sentence_idx - 1)) :=
  ⟨by decide, chunk_size_bound _ _ _ (by decide)⟩

/-- C2 counterexample: a single 1501-character sentence is returned verbatim
as one chunk by the single-sentence short-circuit, so with the default
`max_chunk_size = 1500` the claim "every chunk's text has length at most
`max_chunk_size`" is false. -/
theorem chunk_size_cex :
    ¬ (∀ c ∈ SemanticChunker.chunk SemanticChunkerConfig.default []
          (String.mk (List.replicate 1501 'a')),
        c.text.length ≤ SemanticChunkerConfig.default.max_chunk_size) := by
  have hc : SemanticChunker.chunk SemanticChunkerConfig.default []
      (String.mk (List.replicate 1501 'a')) =
      [⟨String.mk (List.replicate 1501 'a'), 0, 1⟩] :=
    chunk_of_single _ _ _ _ (tokenize_replicate_a 1501 (by decide))
  intro h
  have h2 := h ⟨String.mk (List.replicate 1501 'a'), 0, 1⟩
    (by rw [hc]; exact List.mem_singleton_self _)
  have hlen : (String.mk (List.replicate 1501 'a')).length = 1501 := by
    show (List.replicate 1501 'a').length = 1501
    exact List.length_replicate 1501 'a'
  rw [show (⟨String.mk (List.replicate 1501 'a'), 0, 1⟩ :
      SemanticChunk).text = String.mk (List.replicate 1501 'a') from rfl,
    hlen] at h2
  exact absurd h2 (by decide)

end SupportAgent
